import Mathlib

/-!
# Verification of the transaction_analyzer cost-basis engine

This file is a shallow embedding, in Lean 4, of the core of the
`transaction_analyzer` Go repository: the TD-Ameritrade CSV row parser
(`newTransactionTDA`, `loadTransactions`), the symbol grouper
(`groupSymbols`), the cost-basis aggregator (`newCostBasis`,
`appendCostBasis`, `getEffectiveCostBasis`, `getAvgCost`,
`getEffAvgCost`) and the statistics summarizer (`newTransactionStats`).

Modelling conventions:

* Go `math/big.Float` values (which the program creates with precision 53
  and rounding mode `ToNearestEven` throughout) are modelled by `BigFloat`:
  either a finite binary floating-point number — a `Dyadic` mantissa/exponent
  pair `m * 2^e`, which is exactly `big.Float`'s representation — or a signed
  infinity, or `nan`.  `big.Float` has no NaN values: operations that would
  produce one (0/0, Inf-Inf, 0*Inf, Inf/Inf) panic with `big.ErrNaN` instead.
  We model that panic by the absorbing `BigFloat.nan` value: a `nan` result
  marks exactly the computations on which the Go code panics.
  Signed zero is collapsed to a single zero (the program only ever observes
  zeroes through `Cmp`, for which -0 and +0 are equal).
* Go slices of pointers are modelled as Lean lists.  Where a nil pointer can
  actually occur (the transaction list built by `loadTransactions`) the
  element type is `Option Transaction` with `none` for nil; elsewhere the
  pointers are never nil in the program and lists carry the values directly
  (the defensive `!= nil` guards of `newCostBasis`/`appendCostBasis` are
  subsumed by the types).
* Go maps used in insertion-order-irrelevant ways are modelled as association
  lists; the iteration-order questions the claims ask about are made explicit
  by quantifying over permutations of those lists.
* `for` loops become structural recursions carrying the loop state.
-/

namespace TransactionAnalyzer

/-! ## Binary floating-point core (model of `math/big.Float`, prec = 53)

All arithmetic is executable structural recursion over `Nat`/`Int`, so that
concrete runs of the embedded program reduce under `decide`. -/

/-- Fuel-driven binary logarithm: `log2F fuel n` computes `⌊log₂ n⌋` for
`n ≥ 1` provided `fuel ≥ n`.  (Structural recursion on the fuel, so the
kernel can evaluate it; `Nat.log2` itself is defined by well-founded
recursion and does not reduce.) -/
def log2F : ℕ → ℕ → ℕ
  | 0, _ => 0
  | fuel + 1, n => if n ≥ 2 then log2F fuel (n / 2) + 1 else 0

/-- Executable `⌊log₂ n⌋` (0 for `n = 0`), equal to `Nat.log2`. -/
def natLog2 (n : ℕ) : ℕ := log2F n n

/-- Number of binary digits of `n` (0 for `n = 0`). -/
def natBits (n : ℕ) : ℕ := if n = 0 then 0 else natLog2 n + 1

/-- Round `num / den` to the nearest integer, ties to even
(the integer-level core of IEEE round-to-nearest-even). -/
def roundNatDiv (num den : ℕ) : ℕ :=
  let q := num / den
  let r := num % den
  if 2 * r < den then q
  else if den < 2 * r then q + 1
  else if q % 2 = 0 then q else q + 1

/-- `⌊log₂ (a / b)⌋` for naturals `a, b ≥ 1`, computed from `natLog2` of the
two sides plus one correction test. -/
def ratLog2 (a b : ℕ) : ℤ :=
  let c : ℤ := (natLog2 a : ℤ) - (natLog2 b : ℤ)
  if b * 2 ^ c.toNat ≤ a * 2 ^ (-c).toNat then c else c - 1

/-- Finite `big.Float` value: mantissa times a power of two, `m * 2^e`.
This is precisely the representation `math/big` uses for finite floats. -/
structure Dyadic where
  m : ℤ
  e : ℤ
deriving DecidableEq, Repr

/-- Exact rational value of a dyadic number. -/
def Dyadic.val (d : Dyadic) : ℚ := (d.m : ℚ) * 2 ^ d.e

/-- Round a positive fraction `a / b` (`a, b ≥ 1`) to 53 significant bits,
nearest-even: the result of `big.Float` conversions from exact non-dyadic
values (decimal parsing, quotients) with precision 53. -/
def roundFrac53 (a b : ℕ) : Dyadic :=
  let e := ratLog2 a b
  let num := a * 2 ^ (52 - e).toNat
  let den := b * 2 ^ (e - 52).toNat
  ⟨roundNatDiv num den, e - 52⟩

/-- Round a dyadic number to at most 53 significant bits, nearest-even:
the rounding `big.Float` applies to every arithmetic result at precision
53 (`ToNearestEven`). -/
def roundMant53 (d : Dyadic) : Dyadic :=
  let n := d.m.natAbs
  let bits := natBits n
  if bits ≤ 53 then d
  else
    let k := bits - 53
    let mag := roundNatDiv n (2 ^ k)
    ⟨if d.m < 0 then -(mag : ℤ) else (mag : ℤ), d.e + (k : ℤ)⟩

/-- Exact dyadic sum (before rounding): bring both mantissas to the smaller
exponent and add. -/
def Dyadic.addExact (x y : Dyadic) : Dyadic :=
  let e := min x.e y.e
  ⟨x.m * 2 ^ (x.e - e).toNat + y.m * 2 ^ (y.e - e).toNat, e⟩

/-- Three-way comparison of dyadic values (-1, 0, or 1). -/
def Dyadic.cmp (x y : Dyadic) : ℤ :=
  let e := min x.e y.e
  let a := x.m * 2 ^ (x.e - e).toNat
  let b := y.m * 2 ^ (y.e - e).toNat
  if a < b then -1 else if a = b then 0 else 1

/-- Model of a `math/big.Float` value at precision 53: finite dyadic,
signed infinity, or the `nan` marker standing for the `big.ErrNaN` panic
(see the header comment; `big.Float` itself cannot hold a NaN). -/
inductive BigFloat where
  | finite (d : Dyadic)
  | inf (neg : Bool)
  | nan
deriving DecidableEq, Repr

/-- The `big.Float` zero. -/
def BigFloat.zero : BigFloat := .finite ⟨0, 0⟩

/-- `z.Add(x, y)` at precision 53, `ToNearestEven`.  `Inf + (-Inf)` panics
with `ErrNaN` in Go, modelled by `nan`. -/
def BigFloat.add : BigFloat → BigFloat → BigFloat
  | .nan, _ => .nan
  | _, .nan => .nan
  | .finite x, .finite y => .finite (roundMant53 (x.addExact y))
  | .finite _, .inf b => .inf b
  | .inf b, .finite _ => .inf b
  | .inf b, .inf c => if b = c then .inf b else .nan

/-- `z.Mul(x, y)` at precision 53.  `0 * Inf` panics with `ErrNaN`. -/
def BigFloat.mul : BigFloat → BigFloat → BigFloat
  | .nan, _ => .nan
  | _, .nan => .nan
  | .finite x, .finite y => .finite (roundMant53 ⟨x.m * y.m, x.e + y.e⟩)
  | .finite x, .inf b => if x.m = 0 then .nan else .inf (xor (decide (x.m < 0)) b)
  | .inf b, .finite y => if y.m = 0 then .nan else .inf (xor b (decide (y.m < 0)))
  | .inf b, .inf c => .inf (xor b c)

/-- Dyadic quotient rounded to 53 bits (callers ensure `y.m ≠ 0`). -/
def Dyadic.quo (x y : Dyadic) : Dyadic :=
  if x.m = 0 then ⟨0, 0⟩
  else
    let de := x.e - y.e
    let a := x.m.natAbs * 2 ^ de.toNat
    let b := y.m.natAbs * 2 ^ (-de).toNat
    let mag := roundFrac53 a b
    if (decide (x.m < 0)) = (decide (y.m < 0)) then mag else ⟨-mag.m, mag.e⟩

/-- `z.Quo(x, y)` at precision 53.  A finite nonzero value divided by zero
yields a signed infinity; `0 / 0` and `Inf / Inf` panic with `ErrNaN`
(modelled by `nan`). -/
def BigFloat.quo : BigFloat → BigFloat → BigFloat
  | .nan, _ => .nan
  | _, .nan => .nan
  | .finite x, .finite y =>
    if y.m = 0 then
      (if x.m = 0 then .nan else .inf (decide (x.m < 0)))
    else .finite (x.quo y)
  | .inf b, .finite y => .inf (xor b (decide (y.m < 0)))
  | .finite _, .inf _ => .finite ⟨0, 0⟩
  | .inf _, .inf _ => .nan

/-- `z.Neg(x)`.  (Negating zero gives -0 in Go; signed zero is collapsed
here, see the header comment.) -/
def BigFloat.neg : BigFloat → BigFloat
  | .finite x => .finite ⟨-x.m, x.e⟩
  | .inf b => .inf (!b)
  | .nan => .nan

/-- `x.Cmp(y)`: -1, 0, or 1.  `-Inf < finite < +Inf`.  The `nan` cases are
unreachable in the modelled program (a Go `big.Float` never holds a NaN);
they are given an arbitrary total value. -/
def BigFloat.cmp : BigFloat → BigFloat → ℤ
  | .nan, _ => 0
  | _, .nan => 0
  | .finite x, .finite y => x.cmp y
  | .finite _, .inf b => if b then 1 else -1
  | .inf b, .finite _ => if b then -1 else 1
  | .inf b, .inf c => if b = c then 0 else if b then -1 else 1

/-! ## Decimal parsing (model of `big.ParseFloat(s, 10, 53, big.ToNearestEven)`)

`big.ParseFloat` accepts an optional sign, then either an `inf`/`Inf`
literal or a decimal mantissa (digits with at most one dot, at least one
digit) followed by an optional exponent: `e`/`E` for a power of ten or
`p`/`P` for a power of two, each with optional sign and mandatory digits.
The whole string must be consumed.  The exact decimal value is then rounded
to 53 significant bits, to nearest, ties to even. -/

/-- Greedy digit scan: accumulated value, number of digits read, rest. -/
def takeDigits : ℕ → ℕ → List Char → ℕ × ℕ × List Char
  | acc, n, [] => (acc, n, [])
  | acc, n, c :: cs =>
    if c.isDigit then takeDigits (10 * acc + (c.toNat - 48)) (n + 1) cs
    else (acc, n, c :: cs)

/-- Optional leading sign; returns `true` for a minus sign. -/
def takeSign : List Char → Bool × List Char
  | '+' :: cs => (false, cs)
  | '-' :: cs => (true, cs)
  | cs => (false, cs)

/-- Decimal mantissa: digits with at most one dot, at least one digit in
total.  Returns the digits as an integer, the number of fractional digits,
and the rest of the input. -/
def takeMantissa (cs : List Char) : Option (ℕ × ℕ × List Char) :=
  let (ipart, ni, r1) := takeDigits 0 0 cs
  match r1 with
  | '.' :: r2 =>
    let (fpart, nf, r3) := takeDigits 0 0 r2
    if ni + nf = 0 then none else some (ipart * 10 ^ nf + fpart, nf, r3)
  | _ => if ni = 0 then none else some (ipart, 0, r1)

/-- Optional exponent part: `(base-is-two?, exponent, rest)`; fails if an
exponent marker is present but not followed by at least one digit. -/
def takeExponent (cs : List Char) : Option (Bool × ℤ × List Char) :=
  match cs with
  | c :: r1 =>
    if c = 'e' ∨ c = 'E' ∨ c = 'p' ∨ c = 'P' then
      let isBin := c = 'p' ∨ c = 'P'
      let (eneg, r2) := takeSign r1
      let (d, nd, r3) := takeDigits 0 0 r2
      if nd = 0 then none
      else some (isBin, if eneg then -(d : ℤ) else (d : ℤ), r3)
    else some (false, 0, c :: r1)
  | [] => some (false, 0, [])

/-- Numerator and denominator (in ℕ) of `|mant| / 10^fracLen * base^ex`. -/
def decimalFrac (mant fracLen : ℕ) (isBin : Bool) (ex : ℤ) : ℕ × ℕ :=
  let base : ℕ := if isBin then 2 else 10
  (mant * base ^ ex.toNat, 10 ^ fracLen * base ^ (-ex).toNat)

/-- Model of `big.ParseFloat(s, 10, 53, big.ToNearestEven)`: `none` is the
error return (on which the Go callers substitute a zero default). -/
def parseBigFloat53 (s : String) : Option BigFloat :=
  if s = "Inf" ∨ s = "inf" ∨ s = "+Inf" ∨ s = "+inf" then some (.inf false)
  else if s = "-Inf" ∨ s = "-inf" then some (.inf true)
  else
    let (neg, r0) := takeSign s.data
    match takeMantissa r0 with
    | none => none
    | some (mant, fracLen, r1) =>
      match takeExponent r1 with
      | none => none
      | some (isBin, ex, r2) =>
        if r2 = [] then
          if mant = 0 then some (.finite ⟨0, 0⟩)
          else
            let (a, b) := decimalFrac mant fracLen isBin ex
            let d := roundFrac53 a b
            some (.finite (if neg then ⟨-d.m, d.e⟩ else d))
        else none

/-! ## Date parsing (model of `time.Parse("01/02/2006", s)`)

The layout demands exactly two digits for month and day and four for the
year, separated by literal slashes, with nothing left over; `time.Parse`
also range-checks the month and the day against the length of the month. -/

/-- Gregorian leap-year test (as used by Go's `time` package). -/
def isLeapYear (y : ℕ) : Bool := y % 4 = 0 && (y % 100 ≠ 0 || y % 400 = 0)

/-- Days in a month of a given year. -/
def daysInMonth (month year : ℕ) : ℕ :=
  if month = 2 then (if isLeapYear year then 29 else 28)
  else if month = 4 ∨ month = 6 ∨ month = 9 ∨ month = 11 then 30
  else 31

/-- Calendar date (the only content of the parsed `time.Time` the program
ever uses). -/
structure Tdate where
  month : ℕ
  day : ℕ
  year : ℕ
deriving DecidableEq, Repr

/-- Digit value of a character, if it is a digit. -/
def digitVal (c : Char) : Option ℕ :=
  if c.isDigit then some (c.toNat - 48) else none

/-- Model of `time.Parse("01/02/2006", s)`: strict `MM/DD/YYYY`. -/
def parseDate (s : String) : Option Tdate :=
  match s.data with
  | [m1, m2, s1, d1, d2, s2, y1, y2, y3, y4] =>
    match digitVal m1, digitVal m2, digitVal d1, digitVal d2,
          digitVal y1, digitVal y2, digitVal y3, digitVal y4 with
    | some a, some b, some c, some d, some e, some f, some g, some h =>
      if s1 = '/' ∧ s2 = '/' then
        let month := 10 * a + b
        let day := 10 * c + d
        let year := 1000 * e + 100 * f + 10 * g + h
        if 1 ≤ month ∧ month ≤ 12 ∧ 1 ≤ day ∧ day ≤ daysInMonth month year then
          some ⟨month, day, year⟩
        else none
      else none
    | _, _, _, _, _, _, _, _ => none
  | _ => none

/-! ## The Trade record (struct `transaction` / `trade.Trade`) and its parser -/

/-- The `transaction` struct (identical, up to the name, to `trade.Trade`):
one executed transaction line. -/
structure Transaction where
  Date : Tdate
  Description : String
  Quantity : BigFloat
  Symbol : String
  Price : BigFloat
  Commission : BigFloat
  Amount : BigFloat
deriving DecidableEq, Repr

/-- List-level `strings.HasPrefix`. -/
def listStartsWith : List Char → List Char → Bool
  | _, [] => true
  | [], _ :: _ => false
  | c :: cs, p :: ps => c = p && listStartsWith cs ps

/-- Field `i` of a CSV row.  (Go indexes the row slice directly and would
panic on a short row; the CSV reader hands the program uniform-width rows,
and every row considered in the theorems below has at least 8 fields.) -/
def field (r : List String) (i : ℕ) : String := r.getD i ""

/-- Model of `newTransactionTDA` (= `trade.NewTradeTDA`): build a
`transaction` from a CSV row `DATE, ID, DESCRIPTION, QUANTITY, SYMBOL,
PRICE, COMMISSION, AMOUNT`.  Numeric fields that fail to parse default to
zero; a date that fails to parse makes the whole row fail (`none`, the
`nil, err` return).  If the description does not start with "Bought" the
quantity is negated. -/
def newTransactionTDA (r : List String) : Option Transaction :=
  let quantity := (parseBigFloat53 (field r 3)).getD BigFloat.zero
  let price := (parseBigFloat53 (field r 5)).getD BigFloat.zero
  let commission := (parseBigFloat53 (field r 6)).getD BigFloat.zero
  let amount := (parseBigFloat53 (field r 7)).getD BigFloat.zero
  match parseDate (field r 0) with
  | none => none
  | some transactionDt =>
    let description := field r 2
    let quantity' :=
      if listStartsWith description.data "Bought".data then quantity
      else quantity.neg
    some { Date := transactionDt, Description := description,
           Quantity := quantity', Symbol := field r 4,
           Price := price, Commission := commission, Amount := amount }

/-- Model of the row loop of `loadTransactions`: walk the CSV rows, skip
the header-sentinel rows, and append the result of `newTransactionTDA` to
the slice — including the nil pointer (`none`) produced when the row fails
to parse (the Go code logs "Skipping invalid transaction" but appends
`nextTransaction` unconditionally). -/
def loadTransactions : List (List String) → List (Option Transaction)
  | [] => []
  | record :: rest =>
    if field record 0 = "DATE" ∨ field record 0 = "***END OF FILE***" then
      loadTransactions rest
    else newTransactionTDA record :: loadTransactions rest

/-! ## Symbol grouping (function `groupSymbols`)

The Go function builds a `map[string][]*transaction`.  The map is modelled
as an association list in first-insertion order; its content (which is all
the downstream code and the claims depend on, map iteration order being
arbitrary in Go) is preserved exactly. -/

/-- White-space test of `strings.TrimSpace` (`unicode.IsSpace`), restricted
to the Latin-1 range (space, tab, newline, vertical tab, form feed,
carriage return, NEL, NBSP). -/
def isSpaceGo (c : Char) : Bool :=
  c = ' ' || c = '\t' || c = '\n' || c = '\r' ||
  c.toNat = 11 || c.toNat = 12 || c.toNat = 0x85 || c.toNat = 0xA0

/-- Model of `strings.TrimSpace`. -/
def trimSpace (s : String) : String :=
  ⟨((s.data.dropWhile isSpaceGo).reverse.dropWhile isSpaceGo).reverse⟩

/-- Map read `results[k]`: the Go map returns nil (`none`) for an absent
key. -/
def lookupAssoc : List (String × List Transaction) → String → Option (List Transaction)
  | [], _ => none
  | p :: rest, k => if p.1 = k then some p.2 else lookupAssoc rest k

/-- Map write `results[k] = v` for a key already present. -/
def updateAssoc (results : List (String × List Transaction)) (k : String)
    (v : List Transaction) : List (String × List Transaction) :=
  results.map fun p => if p.1 = k then (k, v) else p

/-- Loop body of `groupSymbols` over the remaining transactions, carrying
the map built so far. -/
def groupSymbolsLoop : List Transaction → List (String × List Transaction) →
    List (String × List Transaction)
  | [], results => results
  | t :: rest, results =>
    let trimmedSymbol := trimSpace t.Symbol
    if trimmedSymbol.length = 0 then groupSymbolsLoop rest results
    else
      match lookupAssoc results trimmedSymbol with
      | some transactionList =>
        groupSymbolsLoop rest (updateAssoc results trimmedSymbol (transactionList ++ [t]))
      | none => groupSymbolsLoop rest (results ++ [(trimmedSymbol, [t])])

/-- Model of `groupSymbols`: bucket the transactions by trimmed symbol,
dropping the ones whose trimmed symbol is empty. -/
def groupSymbols (trans : List Transaction) : List (String × List Transaction) :=
  groupSymbolsLoop trans []

/-! ## Cost basis records (struct `CostBasis`) -/

/-- The `CostBasis` struct.  (A Lean `structure` cannot nest itself in a
`List`, hence the single-constructor inductive with explicit accessors,
named after the Go fields.) -/
inductive CostBasis : Type where
  | mk (Symbol : String) (Position : BigFloat) (PL : BigFloat) (EffPL : BigFloat)
      (Transactions : List Transaction) (RelatedPositions : List CostBasis) : CostBasis

/-- Field `Symbol`: ticker symbol. -/
def CostBasis.Symbol : CostBasis → String
  | .mk s _ _ _ _ _ => s

/-- Field `Position`: total open position, excluding related positions. -/
def CostBasis.Position : CostBasis → BigFloat
  | .mk _ p _ _ _ _ => p

/-- Field `PL`: total profit/loss excluding related positions. -/
def CostBasis.PL : CostBasis → BigFloat
  | .mk _ _ pl _ _ _ => pl

/-- Field `EffPL`: profit/loss including the related positions' P/L. -/
def CostBasis.EffPL : CostBasis → BigFloat
  | .mk _ _ _ eff _ _ => eff

/-- Field `Transactions`: the transactions of this symbol. -/
def CostBasis.Transactions : CostBasis → List Transaction
  | .mk _ _ _ _ tr _ => tr

/-- Field `RelatedPositions`: related cost bases (e.g. options on the
underlying). -/
def CostBasis.RelatedPositions : CostBasis → List CostBasis
  | .mk _ _ _ _ _ rel => rel

/-- The accumulation loop of `newCostBasis`: one pass adding each
transaction's quantity to the open position and its amount to the P/L. -/
def sumLoop : List Transaction → BigFloat × BigFloat → BigFloat × BigFloat
  | [], st => st
  | t :: rest, (openPos, totalPl) => sumLoop rest (openPos.add t.Quantity, totalPl.add t.Amount)

/-- Model of `newCostBasis`: build the record for one symbol; `EffPL`
starts out as a copy of `PL`. -/
def newCostBasis (symbol : String) (trans : List Transaction) : CostBasis :=
  let st := sumLoop trans (BigFloat.zero, BigFloat.zero)
  CostBasis.mk symbol st.1 st.2 st.2 trans []

/-- Model of `getAvgCost`: `PL / Position` (rounded to precision 53). -/
def getAvgCost (e : CostBasis) : BigFloat := BigFloat.quo e.PL e.Position

/-- Model of `getEffAvgCost`: `EffPL / Position`. -/
def getEffAvgCost (e : CostBasis) : BigFloat := BigFloat.quo e.EffPL e.Position

/-- The recomputation loop of `appendCostBasis`: add the `PL` of every
related position to the accumulator. -/
def plAddLoop : List CostBasis → BigFloat → BigFloat
  | [], acc => acc
  | rp :: rest, acc => plAddLoop rest (acc.add rp.PL)

/-- Model of `appendCostBasis`: attach `cb` as a related position and
recompute `EffPL` from scratch as `PL` plus the `PL` of every related
position (in list order). -/
def appendCostBasis (e : CostBasis) (cb : CostBasis) : CostBasis :=
  let related := e.RelatedPositions ++ [cb]
  let updatedEffPL := plAddLoop related e.PL
  CostBasis.mk e.Symbol e.Position e.PL updatedEffPL e.Transactions related

/-! ## The aggregator (function `getEffectiveCostBasis`)

`relatedSymbols : map[string][]string` and
`groupedTransactions : map[string][]*transaction` are modelled as
association lists; a list stands for one concrete iteration order of the
Go map.  The visited set (`map[string]bool`) is a list of the symbols
marked so far. -/

/-- Map read `groupedTransactions[symbol]`: nil (empty) for an absent key. -/
def lookupGroup (grouped : List (String × List Transaction)) (s : String) :
    List Transaction :=
  ((lookupAssoc grouped s).getD [])

/-- Inner loop of `getEffectiveCostBasis`: attach a cost basis for each
not-yet-visited related symbol, marking it visited. -/
def relatedLoop (grouped : List (String × List Transaction)) :
    List String → CostBasis → List String → CostBasis × List String
  | [], effCB, visited => (effCB, visited)
  | relatedSymbol :: rest, effCB, visited =>
    if relatedSymbol ∈ visited then relatedLoop grouped rest effCB visited
    else
      relatedLoop grouped rest
        (appendCostBasis effCB (newCostBasis relatedSymbol (lookupGroup grouped relatedSymbol)))
        (visited ++ [relatedSymbol])

/-- First loop of `getEffectiveCostBasis`: one cost basis per unvisited
base symbol of the relationship map, with its related symbols folded in. -/
def costBasisLoop1 (grouped : List (String × List Transaction)) :
    List (String × List String) → List String → List CostBasis × List String
  | [], visited => ([], visited)
  | (symbol, relatedSymbols) :: rest, visited =>
    if symbol ∈ visited then costBasisLoop1 grouped rest visited
    else
      let st := relatedLoop grouped relatedSymbols
        (newCostBasis symbol (lookupGroup grouped symbol)) (visited ++ [symbol])
      let res := costBasisLoop1 grouped rest st.2
      (st.1 :: res.1, res.2)

/-- Second loop of `getEffectiveCostBasis`: a standalone cost basis for
every grouped symbol not covered by the relationship pass. -/
def costBasisLoop2 (visited : List String) :
    List (String × List Transaction) → List CostBasis
  | [] => []
  | (symbol, transactions) :: rest =>
    if symbol ∈ visited then costBasisLoop2 visited rest
    else newCostBasis symbol transactions :: costBasisLoop2 visited rest

/-- Model of `getEffectiveCostBasis`. -/
def getEffectiveCostBasis (relatedSymbols : List (String × List String))
    (groupedTransactions : List (String × List Transaction)) : List CostBasis :=
  let st := costBasisLoop1 groupedTransactions relatedSymbols []
  st.1 ++ costBasisLoop2 st.2 groupedTransactions

/-! ## The statistics summarizer (struct `TransactionStats`) -/

/-- The `TransactionStats` struct.  The two `*CostBasis` fields are nil
(`none`) when never assigned.  (The Go field holding the record list is
itself named `CostBasis`; Lean needs a distinct field name.) -/
structure TransactionStats where
  CostBasisList : List CostBasis
  ProfitablePositionPct : BigFloat
  LargestGainPosition : Option CostBasis
  LargestLossPosition : Option CostBasis

/-- Loop body of `newTransactionStats`: count profitable positions and
track largest gain / largest loss among closed positions, transliterating
the Go conditions verbatim (including the structure of the
`largestLoss == nil || (...)` disjunction). -/
def statsLoop : List CostBasis → BigFloat × Option CostBasis × Option CostBasis →
    BigFloat × Option CostBasis × Option CostBasis
  | [], st => st
  | position :: rest, (profitPosPct, largestGain, largestLoss) =>
    let profitPosPct' :=
      if BigFloat.cmp position.EffPL BigFloat.zero > 0 then
        profitPosPct.add (.finite ⟨1, 0⟩)
      else profitPosPct
    let st' :=
      if BigFloat.cmp position.Position BigFloat.zero = 0 then
        ((match largestGain with
          | none => some position
          | some g =>
            if BigFloat.cmp position.EffPL g.EffPL > 0 then some position else some g),
         (match largestLoss with
          | none => some position
          | some l =>
            if BigFloat.cmp position.EffPL BigFloat.zero < 0 ∧
               BigFloat.cmp position.EffPL l.EffPL < 0 then some position else some l))
      else (largestGain, largestLoss)
    statsLoop rest (profitPosPct', st'.1, st'.2)

/-- Model of `newTransactionStats`.  `totalCostBasis` is
`big.NewFloat(float64(len(cb)))`, i.e. the length rounded to 53 bits; the
final percentage is `profitPosPct / totalCostBasis * 100`, whose division
panics with `ErrNaN` (here: `nan`) exactly on `0 / 0`. -/
def newTransactionStats (cb : List CostBasis) : TransactionStats :=
  let totalCostBasis : BigFloat := .finite (roundMant53 ⟨(cb.length : ℤ), 0⟩)
  let st := statsLoop cb (BigFloat.zero, none, none)
  let profitPosPct := (BigFloat.quo st.1 totalCostBasis).mul (.finite ⟨100, 0⟩)
  { CostBasisList := cb, ProfitablePositionPct := profitPosPct,
    LargestGainPosition := st.2.1, LargestLossPosition := st.2.2 }

/-! ## Auxiliary definitions used by the correctness statements -/

/-- Trades the grouper drops: trimmed symbol empty. -/
def blankSymbol (t : Transaction) : Bool := (trimSpace t.Symbol).length = 0

/-- All transactions stored in a symbol map (concatenation of the group
values). -/
def elems (results : List (String × List Transaction)) : List Transaction :=
  (results.map Prod.snd).flatten

/-- What the aggregator's first loop produces for one relationship entry
when no skip fires: the base cost basis with every related cost basis
attached in list order. -/
def buildBase (grouped : List (String × List Transaction))
    (p : String × List String) : CostBasis :=
  p.2.foldl (fun acc r => appendCostBasis acc (newCostBasis r (lookupGroup grouped r)))
    (newCostBasis p.1 (lookupGroup grouped p.1))

/-- Every symbol a relationship map mentions: each base key followed by its
related symbols. -/
def allSyms (rel : List (String × List String)) : List String :=
  (rel.map fun p => p.1 :: p.2).flatten

/-! ## Concrete data used by counterexamples and witnesses -/

/-- Row whose quantity, price and amount are the decimal `0.1`. -/
def rowTenth : List String :=
  ["01/15/2024", "id", "Bought 1 AAPL", "0.1", "AAPL", "0.1", "0", "-0.1"]

/-- Row of a sale whose raw quantity field is already negative. -/
def rowSoldNeg : List String :=
  ["01/15/2024", "id1", "Sold 2 AAPL", "-2", "AAPL", "1.5", "0", "3"]

/-- Row of a sale with the usual positive raw quantity. -/
def rowSoldPos : List String :=
  ["01/15/2024", "id2", "Sold 2 AAPL", "2", "AAPL", "1.5", "0", "3"]

/-- Row with a valid date whose price and amount fields are unparsable. -/
def rowBadMoney : List String :=
  ["01/15/2024", "id3", "Bought 1 AAPL", "1", "AAPL", "xx", "0", "yy"]

/-- Closed position (position 0) with positive P/L 1. -/
def cbClosedProfit : CostBasis :=
  CostBasis.mk "AAPL" (.finite ⟨0, 0⟩) (.finite ⟨1, 0⟩) (.finite ⟨1, 0⟩) [] []

/-- Closed position (position 0) with negative P/L -3. -/
def cbClosedLoss : CostBasis :=
  CostBasis.mk "X" (.finite ⟨0, 0⟩) (.finite ⟨-3, 0⟩) (.finite ⟨-3, 0⟩) [] []

/-- Closed position with strictly positive effective P/L 5. -/
def cbClosedGain5 : CostBasis :=
  CostBasis.mk "GAIN" (.finite ⟨0, 0⟩) (.finite ⟨5, 0⟩) (.finite ⟨5, 0⟩) [] []

/-- Transaction with amount 2^53 (exactly representable in 53 bits). -/
def txBig : Transaction :=
  { Date := ⟨1, 15, 2024⟩, Description := "Sold", Quantity := BigFloat.zero,
    Symbol := "A", Price := BigFloat.zero, Commission := BigFloat.zero,
    Amount := .finite ⟨9007199254740992, 0⟩ }

/-- Transaction with amount 1 on a related symbol. -/
def txOne : Transaction :=
  { Date := ⟨1, 16, 2024⟩, Description := "Sold", Quantity := BigFloat.zero,
    Symbol := "A opt", Price := BigFloat.zero, Commission := BigFloat.zero,
    Amount := .finite ⟨1, 0⟩ }

/-- Cost basis whose P/L is 2^53. -/
def cbBig : CostBasis := newCostBasis "A" [txBig]

/-- Cost basis whose P/L is 1. -/
def cbOne : CostBasis := newCostBasis "A opt" [txOne]

/-- A minimal transaction on a given symbol. -/
def txFor (sym : String) : Transaction :=
  { Date := ⟨1, 15, 2024⟩, Description := "Sold", Quantity := BigFloat.zero,
    Symbol := sym, Price := BigFloat.zero, Commission := BigFloat.zero,
    Amount := BigFloat.zero }

/-- Symbol groups for the three symbols `A`, `A B`, `A B C` (as the grouper
would build them: `A B` and `A B C` are derivative symbols of `A`, and
`A B C` is also a derivative symbol of `A B`). -/
def groupedABC : List (String × List Transaction) :=
  [("A", [txFor "A"]), ("A B", [txFor "A B"]), ("A B C", [txFor "A B C"])]

/-- The relationship map of `groupedABC` (exactly what
`groupRelatedSymbols` yields on those keys), with `A` iterated first. -/
def relAB : List (String × List String) :=
  [("A", ["A B", "A B C"]), ("A B", ["A B C"])]

/-- The same relationship map with `A B` iterated first. -/
def relBA : List (String × List String) :=
  [("A B", ["A B C"]), ("A", ["A B", "A B C"])]

/-- A relationship map in which every mentioned symbol is distinct. -/
def relW : List (String × List String) := [("A", ["A x"]), ("B", ["B y"])]

/-- The same map in the opposite iteration order. -/
def relW' : List (String × List String) := [("B", ["B y"]), ("A", ["A x"])]

/-! ## Theorems

First the arithmetic support lemmas, then, per claim, the claim theorems
(with their counterexamples and witnesses where applicable). -/

theorem log2F_eq (fuel n : ℕ) (h : n ≤ fuel) : log2F fuel n = Nat.log2 n := by
  induction fuel generalizing n with
  | zero =>
    have : n = 0 := Nat.le_zero.mp h
    subst this
    simp [log2F, Nat.log2]
  | succ fuel ih =>
    rw [log2F, Nat.log2]
    by_cases h2 : n ≥ 2
    · rw [if_pos h2, if_pos h2, ih (n / 2) (by omega)]
    · rw [if_neg h2, if_neg h2]

theorem natLog2_eq (n : ℕ) : natLog2 n = Nat.log2 n := log2F_eq n n (Nat.le_refl n)

theorem natBits_le_self (n : ℕ) (h : n ≠ 0) : 2 ^ (natBits n - 1) ≤ n := by
  unfold natBits
  rw [if_neg h, natLog2_eq]
  simpa using Nat.log2_self_le h

theorem roundNatDiv_ge (num den : ℕ) : num / den ≤ roundNatDiv num den := by
  have h : roundNatDiv num den =
      if 2 * (num % den) < den then num / den
      else if den < 2 * (num % den) then num / den + 1
      else if num / den % 2 = 0 then num / den else num / den + 1 := rfl
  rw [h]
  split
  · omega
  · split
    · omega
    · split <;> omega

/-- The mantissa of a natural number rounded to 53 bits is nonzero when the
number is. -/
theorem roundMant53_nat_m (n : ℕ) (h : n ≠ 0) : (roundMant53 ⟨(n : ℤ), 0⟩).m ≠ 0 := by
  unfold roundMant53
  simp only [Int.natAbs_ofNat]
  split
  · simpa using h
  · next hbits =>
    have hk : 2 ^ (natBits n - 53) ≤ n := by
      calc 2 ^ (natBits n - 53) ≤ 2 ^ (natBits n - 1) :=
            Nat.pow_le_pow_right (by omega) (by omega)
        _ ≤ n := natBits_le_self n h
    have hdiv : 1 ≤ n / 2 ^ (natBits n - 53) :=
      (Nat.one_le_div_iff (Nat.pos_pow_of_pos _ (by omega))).mpr hk
    have hge := roundNatDiv_ge n (2 ^ (natBits n - 53))
    have hpos : ¬((n : ℤ) < 0) := by omega
    rw [if_neg hpos]
    simp only [ne_eq, Int.natCast_eq_zero]
    omega

/-! ### Support lemmas about the embedded operations -/

/-- Division by a zero-valued `big.Float`: `0 / 0` panics (`nan`), a nonzero
finite numerator yields a signed infinity, an infinite numerator stays
infinite. -/
theorem quo_by_zero (x : BigFloat) (d : Dyadic) (h0 : d.m = 0) :
    (BigFloat.quo x (.finite d) = .nan ↔
      (x = .nan ∨ ∃ dp, x = .finite dp ∧ dp.m = 0)) ∧
    (∀ dp, x = .finite dp → dp.m ≠ 0 →
      BigFloat.quo x (.finite d) = .inf (decide (dp.m < 0))) := by
  constructor
  · cases x with
    | finite dp => by_cases hm : dp.m = 0 <;> simp [BigFloat.quo, h0, hm]
    | inf b => simp [BigFloat.quo, h0]
    | nan => simp [BigFloat.quo]
  · intro dp hx hm
    subst hx
    simp [BigFloat.quo, h0, hm]

/-- Negating a nonnegative finite value compares `≤ 0` against zero. -/
theorem cmp_neg_nonneg (dq : Dyadic) (hm : 0 ≤ dq.m) :
    BigFloat.cmp (.finite ⟨-dq.m, dq.e⟩) BigFloat.zero ≤ 0 := by
  show Dyadic.cmp ⟨-dq.m, dq.e⟩ ⟨0, 0⟩ ≤ 0
  unfold Dyadic.cmp
  have ha : -dq.m * 2 ^ ((⟨-dq.m, dq.e⟩ : Dyadic).e - min (⟨-dq.m, dq.e⟩ : Dyadic).e (0 : ℤ)).toNat ≤ 0 :=
    mul_nonpos_of_nonpos_of_nonneg (by omega) (by positivity)
  simp only [zero_mul]
  split
  · omega
  · split
    · omega
    · next h1 h2 =>
      exfalso
      simp only [] at ha
      omega

/-- After any sequence of `appendCostBasis` calls, `PL` is untouched, the
related positions accumulate in order, and `EffPL` is the rounded
accumulation of `PL` with every related `PL` — provided the starting record
already satisfies that shape (as every record built by `newCostBasis`
does). -/
theorem foldl_appendCostBasis_spec (rs : List CostBasis) (e : CostBasis)
    (he : e.EffPL = plAddLoop e.RelatedPositions e.PL) :
    (rs.foldl appendCostBasis e).PL = e.PL ∧
    (rs.foldl appendCostBasis e).RelatedPositions = e.RelatedPositions ++ rs ∧
    (rs.foldl appendCostBasis e).EffPL = plAddLoop (e.RelatedPositions ++ rs) e.PL := by
  induction rs generalizing e with
  | nil =>
    refine ⟨rfl, by simp, ?_⟩
    simpa using he
  | cons r rest ih =>
    have he' : (appendCostBasis e r).EffPL =
        plAddLoop (appendCostBasis e r).RelatedPositions (appendCostBasis e r).PL := rfl
    obtain ⟨h1, h2, h3⟩ := ih (appendCostBasis e r) he'
    have hrel : (appendCostBasis e r).RelatedPositions = e.RelatedPositions ++ [r] := rfl
    have hpl : (appendCostBasis e r).PL = e.PL := rfl
    refine ⟨?_, ?_, ?_⟩
    · show (List.foldl appendCostBasis (appendCostBasis e r) rest).PL = e.PL
      rw [h1, hpl]
    · show (List.foldl appendCostBasis (appendCostBasis e r) rest).RelatedPositions =
        e.RelatedPositions ++ r :: rest
      rw [h2, hrel]
      simp
    · show (List.foldl appendCostBasis (appendCostBasis e r) rest).EffPL =
        plAddLoop (e.RelatedPositions ++ r :: rest) e.PL
      rw [h3, hrel, hpl]
      simp [List.append_assoc]

/-- The profitable-position counter of the statistics loop is always a
finite value when it starts finite. -/
theorem statsLoop_counter_finite :
    ∀ (l : List CostBasis) (p : BigFloat) (lg ll : Option CostBasis) (d : Dyadic),
      p = .finite d → ∃ d', (statsLoop l (p, lg, ll)).1 = .finite d' := by
  intro l
  induction l with
  | nil =>
    intro p lg ll d hp
    exact ⟨d, by simpa [statsLoop] using hp⟩
  | cons position rest ih =>
    intro p lg ll d hp
    subst hp
    simp only [statsLoop]
    by_cases hc : BigFloat.cmp position.EffPL BigFloat.zero > 0
    · rw [if_pos hc]
      exact ih _ _ _ (roundMant53 (Dyadic.addExact d ⟨1, 0⟩)) rfl
    · rw [if_neg hc]
      exact ih _ _ _ d rfl

/-! ### Claim C1 — exact-decimal parsing of the money fields -/

/-- C1 counterexample: the quantity (and price/amount) fields are parsed
with `big.ParseFloat(s, 10, 53, ToNearestEven)`, a 53-bit binary float
conversion; parsing the row whose quantity field is `"0.1"` stores the
dyadic `7205759403792794 * 2^-56`, which is not the exact decimal `1/10`.
This refutes the claim that the stored value equals the exact decimal
value written in the row. -/
theorem quantity_not_exact_decimal :
    (newTransactionTDA rowTenth).map Transaction.Quantity =
      some (.finite ⟨7205759403792794, -56⟩) ∧
    Dyadic.val ⟨7205759403792794, -56⟩ ≠ 1 / 10 := by
  refine ⟨by decide, ?_⟩
  norm_num [Dyadic.val]

/-- C1 (amended): the money fields are parsed as 53-bit binary
floating-point numbers (round-to-nearest-even), not exact decimals; a
parse failure on one of these fields yields the exact-zero default for
that field only and never fails the row — a row with a valid date always
produces a record, each money field carrying its own parse result (zero
when its parse failed). -/
theorem money_field_failure_isolated (r : List String) (dt : Tdate)
    (hd : parseDate (field r 0) = some dt) :
    ∃ t, newTransactionTDA r = some t ∧
      t.Price = (parseBigFloat53 (field r 5)).getD BigFloat.zero ∧
      t.Commission = (parseBigFloat53 (field r 6)).getD BigFloat.zero ∧
      t.Amount = (parseBigFloat53 (field r 7)).getD BigFloat.zero := by
  unfold newTransactionTDA
  rw [hd]
  exact ⟨_, rfl, rfl, rfl, rfl⟩

/-- Witness for C1's amended theorem: the row `rowBadMoney` has a valid
date but unparsable price and amount fields, and still yields a record. -/
theorem money_field_failure_isolated_witness :
    ∃ t, newTransactionTDA rowBadMoney = some t ∧
      t.Price = (parseBigFloat53 (field rowBadMoney 5)).getD BigFloat.zero ∧
      t.Commission = (parseBigFloat53 (field rowBadMoney 6)).getD BigFloat.zero ∧
      t.Amount = (parseBigFloat53 (field rowBadMoney 7)).getD BigFloat.zero :=
  money_field_failure_isolated rowBadMoney ⟨1, 15, 2024⟩ (by decide)

/-! ### Claim C2 — rows with unparsable dates -/

/-- C2: a row whose date fails to parse is NOT dropped from the loaded
list: `loadTransactions` logs "Skipping invalid transaction" but then
appends the nil record (`none`) anyway, so the bad first row below leaves
a `none` entry while processing continues to the valid second row. -/
theorem loadTransactions_appends_nil_for_bad_date :
    (loadTransactions
      [["notadate", "x", "Sold", "1", "AAPL", "1", "0", "1"],
       ["01/15/2024", "x", "Sold 1 AAPL", "1", "AAPL", "1", "0", "1"]]).map
        Option.isSome = [false, true] := by decide

/-! ### Claim C3 — average cost on a closed (position = 0) record -/

/-- C3 counterexample: on the closed record `cbClosedProfit`
(`position = 0`, `pl = 1`), `getAvgCost` silently returns `+Inf` — it does
not signal the `ErrNaN` ("division of zero by zero") error condition.
This refutes the claim that a zero position always signals
DivisionUndefined and never yields `+Inf`. -/
theorem getAvgCost_zero_position_cex :
    getAvgCost cbClosedProfit = .inf false ∧ getAvgCost cbClosedProfit ≠ .nan := by
  decide

/-- C3 (amended): on a record with `position = 0`, the average-cost
computations signal the error (`big.Float`'s `ErrNaN` panic, modelled by
`nan`) exactly when the numerator (`pl`, resp. `effPL`) is itself zero (or
already a panic marker); when the numerator is finite and nonzero they
silently return a signed infinity instead. -/
theorem getAvgCost_zero_position (e : CostBasis) (d : Dyadic)
    (hpos : e.Position = .finite d) (h0 : d.m = 0) :
    (getAvgCost e = .nan ↔ (e.PL = .nan ∨ ∃ dp, e.PL = .finite dp ∧ dp.m = 0)) ∧
    (∀ dp, e.PL = .finite dp → dp.m ≠ 0 → getAvgCost e = .inf (decide (dp.m < 0))) ∧
    (getEffAvgCost e = .nan ↔ (e.EffPL = .nan ∨ ∃ dp, e.EffPL = .finite dp ∧ dp.m = 0)) ∧
    (∀ dp, e.EffPL = .finite dp → dp.m ≠ 0 → getEffAvgCost e = .inf (decide (dp.m < 0))) := by
  unfold getAvgCost getEffAvgCost
  rw [hpos]
  exact ⟨(quo_by_zero e.PL d h0).1, (quo_by_zero e.PL d h0).2,
         (quo_by_zero e.EffPL d h0).1, (quo_by_zero e.EffPL d h0).2⟩

/-- Witness for C3's amended theorem: on the closed losing record
`cbClosedLoss` (`position = 0`, `pl = -3`), `getAvgCost` returns `-Inf`. -/
theorem getAvgCost_zero_position_witness :
    getAvgCost cbClosedLoss = .inf true := by
  have h := (getAvgCost_zero_position cbClosedLoss ⟨0, 0⟩ rfl rfl).2.1 ⟨-3, 0⟩ rfl
    (by decide)
  simpa using h

/-! ### Claim C5 — largest-loss selection -/

/-- C5: the largest-loss field is NOT left unset when no closed record has
`effPL < 0`: because the Go condition is
`largestLoss == nil || (effPL < 0 && effPL < largestLoss.EffPL)`, the
first closed record is assigned unconditionally.  On the input containing
only `cbClosedGain5` (closed, `effPL = +5 > 0`) the field is set to that
strictly profitable record, contradicting the claimed "none" sentinel and
the claim that it is never a record with non-negative `effPL`. -/
theorem largestLoss_set_to_nonloss :
    (newTransactionStats [cbClosedGain5]).LargestLossPosition = some cbClosedGain5 ∧
    BigFloat.cmp cbClosedGain5.EffPL BigFloat.zero > 0 :=
  ⟨rfl, by decide⟩

/-! ### Claim C6 — the `effPL = pl + Σ related.pl` invariant -/

/-- C6 counterexample: `effPL` is recomputed with 53-bit rounded additions,
so the exact equality `effPL = pl + Σ related.pl` fails once the exact sum
needs more than 53 bits: attaching a related position with `pl = 1` to a
record with `pl = 2^53` leaves `effPL = 2^53` (the rounded sum), not
`2^53 + 1`. -/
theorem effPL_not_exact_sum :
    (appendCostBasis cbBig cbOne).EffPL = .finite ⟨4503599627370496, 1⟩ ∧
    (appendCostBasis cbBig cbOne).PL = .finite ⟨4503599627370496, 1⟩ ∧
    (appendCostBasis cbBig cbOne).RelatedPositions.map CostBasis.PL = [.finite ⟨1, 0⟩] ∧
    Dyadic.val ⟨4503599627370496, 1⟩ ≠
      Dyadic.val ⟨4503599627370496, 1⟩ + Dyadic.val ⟨1, 0⟩ := by
  refine ⟨by decide, by decide, by decide, ?_⟩
  norm_num [Dyadic.val]

/-- C6 (amended): `effPL` is deterministically recomputed — never
incrementally drifted — at construction and at every attachment: a record
fresh from `newCostBasis` has `effPL = pl` exactly, and after any sequence
of `appendCostBasis` calls `effPL` equals the precision-53 rounded
accumulation of `pl` with the `pl` of every related position in order
(`plAddLoop`); the exact unrounded sum is not preserved in general. -/
theorem effPL_recomputed (symbol : String) (trans : List Transaction)
    (rs : List CostBasis) :
    (newCostBasis symbol trans).EffPL = (newCostBasis symbol trans).PL ∧
    (rs.foldl appendCostBasis (newCostBasis symbol trans)).EffPL =
      plAddLoop rs (newCostBasis symbol trans).PL := by
  refine ⟨rfl, ?_⟩
  have h := foldl_appendCostBasis_spec rs (newCostBasis symbol trans) rfl
  simpa using h.2.2

/-! ### Claim C8 — direction normalization of the quantity -/

/-- C8 counterexample: the quantity of a non-"Bought" row is negated, not
forced negative: on `rowSoldNeg` (description "Sold 2 AAPL", raw quantity
field `"-2"`) the stored quantity is `+2 > 0`.  This refutes the claim
that sells are negative regardless of the raw sign. -/
theorem sold_negative_raw_quantity_positive :
    (newTransactionTDA rowSoldNeg).map Transaction.Quantity =
      some (.finite ⟨4503599627370496, -51⟩) ∧
    BigFloat.cmp (.finite ⟨4503599627370496, -51⟩) BigFloat.zero > 0 ∧
    Dyadic.val ⟨4503599627370496, -51⟩ = 2 := by
  refine ⟨by decide, by decide, ?_⟩
  norm_num [Dyadic.val]

/-- C8 (amended): for a successfully parsed row, a "Bought" description
keeps the parsed quantity as-is and any other description negates it
(sign flip, not forced sign): in particular, when the raw quantity parses
to a non-negative finite value, a non-"Bought" row stores a non-positive
quantity. -/
theorem quantity_sign_flipped (r : List String) (dt : Tdate)
    (hd : parseDate (field r 0) = some dt) :
    ∃ t, newTransactionTDA r = some t ∧
      t.Quantity =
        (if listStartsWith (field r 2).data "Bought".data
         then (parseBigFloat53 (field r 3)).getD BigFloat.zero
         else ((parseBigFloat53 (field r 3)).getD BigFloat.zero).neg) ∧
      (listStartsWith (field r 2).data "Bought".data = false →
        ∀ dq : Dyadic, parseBigFloat53 (field r 3) = some (.finite dq) → 0 ≤ dq.m →
          BigFloat.cmp t.Quantity BigFloat.zero ≤ 0) := by
  unfold newTransactionTDA
  rw [hd]
  refine ⟨_, rfl, rfl, ?_⟩
  intro hb dq hq hm
  show BigFloat.cmp
    (if listStartsWith (field r 2).data "Bought".data
     then (parseBigFloat53 (field r 3)).getD BigFloat.zero
     else ((parseBigFloat53 (field r 3)).getD BigFloat.zero).neg) BigFloat.zero ≤ 0
  rw [hb, if_neg (by simp), hq]
  exact cmp_neg_nonneg dq hm

/-- Witness for C8's amended theorem at the concrete sale row
`rowSoldPos`. -/
theorem quantity_sign_flipped_witness :
    ∃ t, newTransactionTDA rowSoldPos = some t ∧
      t.Quantity =
        (if listStartsWith (field rowSoldPos 2).data "Bought".data
         then (parseBigFloat53 (field rowSoldPos 3)).getD BigFloat.zero
         else ((parseBigFloat53 (field rowSoldPos 3)).getD BigFloat.zero).neg) ∧
      (listStartsWith (field rowSoldPos 2).data "Bought".data = false →
        ∀ dq : Dyadic, parseBigFloat53 (field rowSoldPos 3) = some (.finite dq) →
          0 ≤ dq.m → BigFloat.cmp t.Quantity BigFloat.zero ≤ 0) :=
  quantity_sign_flipped rowSoldPos ⟨1, 15, 2024⟩ (by decide)

/-! ### Claim C9 — frame property of `appendCostBasis` -/

/-- C9: attaching a related cost basis changes only `EffPL` and
`RelatedPositions`: `Symbol`, `Position`, `PL` and `Transactions` of the
receiver are unchanged, and `RelatedPositions` grows by exactly the one
attached record at the end. -/
theorem appendCostBasis_frame (e cb : CostBasis) :
    (appendCostBasis e cb).Symbol = e.Symbol ∧
    (appendCostBasis e cb).Position = e.Position ∧
    (appendCostBasis e cb).PL = e.PL ∧
    (appendCostBasis e cb).Transactions = e.Transactions ∧
    (appendCostBasis e cb).RelatedPositions = e.RelatedPositions ++ [cb] :=
  ⟨rfl, rfl, rfl, rfl, rfl⟩

/-! ### Claim C10 — the statistics division is defined iff the input is
non-empty -/

/-- C10: the summarizer's percentage division `profitPosPct / len(cb)`
reaches the `ErrNaN` panic branch (modelled by `nan`) exactly when the
input list of cost-basis records is empty: for non-empty input the divisor
is the nonzero record count and the division is defined. -/
theorem stats_division_nan_iff_empty (cb : List CostBasis) :
    (newTransactionStats cb).ProfitablePositionPct = .nan ↔ cb = [] := by
  constructor
  · intro h
    by_contra hne
    obtain ⟨d, hd⟩ := statsLoop_counter_finite cb BigFloat.zero none none ⟨0, 0⟩ rfl
    have hlen : cb.length ≠ 0 := by simpa using hne
    have hm := roundMant53_nat_m cb.length hlen
    simp only [newTransactionStats] at h
    rw [hd] at h
    simp [BigFloat.quo, BigFloat.mul, hm] at h
  · rintro rfl
    decide

/-! ### Claim C7 — the grouper partitions the trade collection -/

theorem lookupAssoc_mem {results : List (String × List Transaction)} {k : String}
    {v : List Transaction} (h : lookupAssoc results k = some v) : (k, v) ∈ results := by
  induction results with
  | nil => cases h
  | cons p rest ih =>
    by_cases hk : p.1 = k
    · have hv : p.2 = v := by simpa [lookupAssoc, hk] using h
      have : (k, v) = p := by
        cases p
        simp_all
      rw [this]
      exact List.mem_cons_self _ _
    · have h' : lookupAssoc rest k = some v := by simpa [lookupAssoc, hk] using h
      exact List.mem_cons_of_mem _ (ih h')

theorem lookupAssoc_eq_none {results : List (String × List Transaction)} {k : String} :
    lookupAssoc results k = none ↔ k ∉ results.map Prod.fst := by
  induction results with
  | nil => simp [lookupAssoc]
  | cons p rest ih =>
    by_cases hk : p.1 = k
    · simp [lookupAssoc, hk]
    · simp [lookupAssoc, hk, ih, Ne.symm hk]

theorem updateAssoc_keys (results : List (String × List Transaction)) (k : String)
    (v : List Transaction) :
    (updateAssoc results k v).map Prod.fst = results.map Prod.fst := by
  induction results with
  | nil => rfl
  | cons p rest ih =>
    by_cases hk : p.1 = k
    · simp [updateAssoc, hk] at ih ⊢
      exact ih
    · simp [updateAssoc, hk] at ih ⊢
      exact ih

theorem updateAssoc_id {results : List (String × List Transaction)} {k : String}
    (h : k ∉ results.map Prod.fst) (v : List Transaction) :
    updateAssoc results k v = results := by
  induction results with
  | nil => rfl
  | cons p rest ih =>
    simp only [List.map_cons, List.mem_cons] at h
    push_neg at h
    simp only [updateAssoc, List.map_cons]
    rw [if_neg (fun he => h.1 he.symm)]
    have := ih (by exact fun hm => h.2 hm)
    simp only [updateAssoc] at this
    rw [this]

/-- The invariant of the grouping loop: every entry of the accumulator maps
a non-blank key to exactly the already-consumed transactions with that
trimmed symbol, keys are distinct, and every consumed non-blank symbol has
an entry. -/
theorem groupSymbolsLoop_inv :
    ∀ (l : List Transaction) (results : List (String × List Transaction))
      (c : List Transaction),
    (∀ p ∈ results, p.1.length ≠ 0 ∧
        p.2 = c.filter (fun t => trimSpace t.Symbol = p.1)) →
    (results.map Prod.fst).Nodup →
    (∀ t ∈ c, (trimSpace t.Symbol).length ≠ 0 →
        trimSpace t.Symbol ∈ results.map Prod.fst) →
    (∀ p ∈ groupSymbolsLoop l results, p.1.length ≠ 0 ∧
        p.2 = (c ++ l).filter (fun t => trimSpace t.Symbol = p.1)) ∧
    ((groupSymbolsLoop l results).map Prod.fst).Nodup ∧
    (∀ t ∈ c ++ l, (trimSpace t.Symbol).length ≠ 0 →
        trimSpace t.Symbol ∈ (groupSymbolsLoop l results).map Prod.fst) := by
  intro l
  induction l with
  | nil =>
    intro results c h1 h2 h3
    refine ⟨?_, by simpa [groupSymbolsLoop] using h2, ?_⟩
    · intro p hp
      simpa [groupSymbolsLoop] using h1 p (by simpa [groupSymbolsLoop] using hp)
    · intro t ht hl
      simpa [groupSymbolsLoop] using h3 t (by simpa using ht) hl
  | cons t rest ih =>
    intro results c h1 h2 h3
    simp only [groupSymbolsLoop]
    by_cases hσ : (trimSpace t.Symbol).length = 0
    · rw [if_pos hσ]
      have inv1 : ∀ p ∈ results, p.1.length ≠ 0 ∧
          p.2 = (c ++ [t]).filter (fun t' => trimSpace t'.Symbol = p.1) := by
        intro p hp
        obtain ⟨hl, hv⟩ := h1 p hp
        have hne : ¬ trimSpace t.Symbol = p.1 := by
          intro he
          rw [he] at hσ
          exact hl hσ
        refine ⟨hl, ?_⟩
        rw [List.filter_append, ← hv]
        simp [hne]
      have inv3 : ∀ t' ∈ c ++ [t], (trimSpace t'.Symbol).length ≠ 0 →
          trimSpace t'.Symbol ∈ results.map Prod.fst := by
        intro t' ht' hl
        rcases List.mem_append.mp ht' with hc | hc
        · exact h3 t' hc hl
        · have : t' = t := by simpa using hc
          subst this
          exact absurd hσ hl
      have hmain := ih results (c ++ [t]) inv1 h2 inv3
      simpa [List.append_assoc] using hmain
    · rw [if_neg hσ]
      cases hlk : lookupAssoc results (trimSpace t.Symbol) with
      | some ts =>
        have hmem : (trimSpace t.Symbol, ts) ∈ results := lookupAssoc_mem hlk
        have hts : ts = c.filter (fun t' => trimSpace t'.Symbol = trimSpace t.Symbol) :=
          (h1 _ hmem).2
        have inv1 : ∀ p ∈ updateAssoc results (trimSpace t.Symbol) (ts ++ [t]),
            p.1.length ≠ 0 ∧
            p.2 = (c ++ [t]).filter (fun t' => trimSpace t'.Symbol = p.1) := by
          intro p' hp'
          obtain ⟨p, hp, he⟩ := List.mem_map.mp hp'
          by_cases hk : p.1 = trimSpace t.Symbol
          · rw [if_pos hk] at he
            subst he
            refine ⟨hσ, ?_⟩
            rw [List.filter_append]
            simp only []
            rw [← hts]
            simp
          · rw [if_neg hk] at he
            subst he
            obtain ⟨hl, hv⟩ := h1 p hp
            refine ⟨hl, ?_⟩
            rw [List.filter_append, ← hv]
            have hne : ¬ trimSpace t.Symbol = p.1 := fun he' => hk he'.symm
            simp [hne]
        have inv2 : ((updateAssoc results (trimSpace t.Symbol) (ts ++ [t])).map
            Prod.fst).Nodup := by
          rw [updateAssoc_keys]
          exact h2
        have inv3 : ∀ t' ∈ c ++ [t], (trimSpace t'.Symbol).length ≠ 0 →
            trimSpace t'.Symbol ∈
              (updateAssoc results (trimSpace t.Symbol) (ts ++ [t])).map Prod.fst := by
          intro t' ht' hl
          rw [updateAssoc_keys]
          rcases List.mem_append.mp ht' with hc | hc
          · exact h3 t' hc hl
          · have : t' = t := by simpa using hc
            subst this
            exact List.mem_map.mpr ⟨_, hmem, rfl⟩
        have hmain := ih _ (c ++ [t]) inv1 inv2 inv3
        simpa [List.append_assoc] using hmain
      | none =>
        have hnk : trimSpace t.Symbol ∉ results.map Prod.fst :=
          lookupAssoc_eq_none.mp hlk
        have hfe : c.filter (fun t' => trimSpace t'.Symbol = trimSpace t.Symbol) = [] := by
          rw [List.filter_eq_nil_iff]
          intro t' ht'
          simp only [decide_eq_true_eq]
          intro he
          exact hnk (by rw [← he]; exact h3 t' ht' (by rw [he]; exact hσ))
        have inv1 : ∀ p ∈ results ++ [(trimSpace t.Symbol, [t])], p.1.length ≠ 0 ∧
            p.2 = (c ++ [t]).filter (fun t' => trimSpace t'.Symbol = p.1) := by
          intro p hp
          rcases List.mem_append.mp hp with hc | hc
          · obtain ⟨hl, hv⟩ := h1 p hc
            have hne : ¬ trimSpace t.Symbol = p.1 := by
              intro he
              exact hnk (by rw [he]; exact List.mem_map.mpr ⟨p, hc, rfl⟩)
            refine ⟨hl, ?_⟩
            rw [List.filter_append, ← hv]
            simp [hne]
          · have : p = (trimSpace t.Symbol, [t]) := by simpa using hc
            subst this
            refine ⟨hσ, ?_⟩
            rw [List.filter_append]
            simp only []
            rw [hfe]
            simp
        have inv2 : ((results ++ [(trimSpace t.Symbol, [t])]).map Prod.fst).Nodup := by
          rw [List.map_append]
          simp only [List.map_cons, List.map_nil]
          rw [List.nodup_append]
          refine ⟨h2, List.nodup_singleton _, ?_⟩
          intro x hx
          simp only [List.mem_singleton]
          intro he
          exact hnk (he ▸ hx)
        have inv3 : ∀ t' ∈ c ++ [t], (trimSpace t'.Symbol).length ≠ 0 →
            trimSpace t'.Symbol ∈ (results ++ [(trimSpace t.Symbol, [t])]).map Prod.fst := by
          intro t' ht' hl
          rw [List.map_append]
          rcases List.mem_append.mp ht' with hc | hc
          · exact List.mem_append.mpr (Or.inl (h3 t' hc hl))
          · have : t' = t := by simpa using hc
            subst this
            exact List.mem_append.mpr (Or.inr (by simp))
        have hmain := ih _ (c ++ [t]) inv1 inv2 inv3
        simpa [List.append_assoc] using hmain

theorem elems_cons (p : String × List Transaction)
    (rest : List (String × List Transaction)) :
    elems (p :: rest) = p.2 ++ elems rest := by
  simp [elems]

theorem elems_append (xs ys : List (String × List Transaction)) :
    elems (xs ++ ys) = elems xs ++ elems ys := by
  simp [elems]

/-- Updating the (unique, by key-distinctness) entry of `k` by appending one
transaction adds exactly that transaction to the stored contents. -/
theorem elems_updateAssoc (results : List (String × List Transaction)) (k : String)
    (ts : List Transaction) (t : Transaction)
    (hnd : (results.map Prod.fst).Nodup)
    (hlk : lookupAssoc results k = some ts) :
    (elems (updateAssoc results k (ts ++ [t]))).Perm (elems results ++ [t]) := by
  induction results with
  | nil => cases hlk
  | cons p rest ih =>
    rw [List.map_cons] at hnd
    have hnd' : (rest.map Prod.fst).Nodup := (List.nodup_cons.mp hnd).2
    by_cases hk : p.1 = k
    · have hts : p.2 = ts := by simpa [lookupAssoc, hk] using hlk
      have hnk : k ∉ rest.map Prod.fst := hk ▸ (List.nodup_cons.mp hnd).1
      have hid : List.map (fun q => if q.1 = k then (k, ts ++ [t]) else q) rest = rest :=
        updateAssoc_id hnk (ts ++ [t])
      have hup : updateAssoc (p :: rest) k (ts ++ [t]) = (k, ts ++ [t]) :: rest := by
        unfold updateAssoc
        rw [List.map_cons, if_pos hk, hid]
      rw [hup, elems_cons, elems_cons, hts]
      rw [List.append_assoc ts [t] (elems rest), List.append_assoc ts (elems rest) [t]]
      exact List.Perm.append_left ts List.perm_append_comm
    · have hlk' : lookupAssoc rest k = some ts := by simpa [lookupAssoc, hk] using hlk
      have hup : updateAssoc (p :: rest) k (ts ++ [t]) =
          p :: updateAssoc rest k (ts ++ [t]) := by
        unfold updateAssoc
        rw [List.map_cons, if_neg hk]
      rw [hup, elems_cons, elems_cons]
      rw [List.append_assoc p.2 (elems rest) [t]]
      exact List.Perm.append_left p.2 (ih hnd' hlk')

/-- Content of the grouping loop: the transactions stored in the final map
are (a permutation of) the ones stored at entry plus the non-blank
remaining transactions in order. -/
theorem groupSymbolsLoop_elems :
    ∀ (l : List Transaction) (results : List (String × List Transaction)),
    (results.map Prod.fst).Nodup →
    (elems (groupSymbolsLoop l results)).Perm
      (elems results ++ l.filter (fun t => !blankSymbol t)) := by
  intro l
  induction l with
  | nil =>
    intro results _
    simp [groupSymbolsLoop]
  | cons t rest ih =>
    intro results hnd
    simp only [groupSymbolsLoop]
    by_cases hσ : (trimSpace t.Symbol).length = 0
    · rw [if_pos hσ]
      have h := ih results hnd
      simpa [List.filter_cons, blankSymbol, hσ] using h
    · rw [if_neg hσ]
      have hkeep : (!blankSymbol t) = true := by
        simp [blankSymbol, hσ]
      cases hlk : lookupAssoc results (trimSpace t.Symbol) with
      | some ts =>
        have h1 := ih (updateAssoc results (trimSpace t.Symbol) (ts ++ [t]))
          (by rw [updateAssoc_keys]; exact hnd)
        have h2 := elems_updateAssoc results (trimSpace t.Symbol) ts t hnd hlk
        rw [List.filter_cons]
        rw [hkeep]
        simp only [if_true]
        refine h1.trans ?_
        refine (h2.append_right _).trans ?_
        rw [List.append_assoc, List.singleton_append]
      | none =>
        have hnk : trimSpace t.Symbol ∉ results.map Prod.fst :=
          lookupAssoc_eq_none.mp hlk
        have hnd' : ((results ++ [(trimSpace t.Symbol, [t])]).map Prod.fst).Nodup := by
          rw [List.map_append]
          simp only [List.map_cons, List.map_nil]
          rw [List.nodup_append]
          refine ⟨hnd, List.nodup_singleton _, ?_⟩
          intro x hx
          simp only [List.mem_singleton]
          intro he
          exact hnk (he ▸ hx)
        have h1 := ih (results ++ [(trimSpace t.Symbol, [t])]) hnd'
        have he : elems (results ++ [(trimSpace t.Symbol, [t])]) = elems results ++ [t] := by
          rw [elems_append]
          simp [elems]
        rw [List.filter_cons]
        rw [hkeep]
        simp only [if_true]
        refine h1.trans ?_
        rw [he, List.append_assoc, List.singleton_append]

/-- C7: the symbol grouper partitions the trade collection: the trades
stored across all groups, together with the dropped blank-symbol trades,
are a permutation of the input (each trade exactly once, no extras), and
each group holds exactly the input trades with that trimmed symbol in
encounter order. -/
theorem groupSymbols_partition (trans : List Transaction) :
    (elems (groupSymbols trans) ++ trans.filter blankSymbol).Perm trans ∧
    (∀ p ∈ groupSymbols trans,
      p.2 = trans.filter (fun t => trimSpace t.Symbol = p.1)) := by
  constructor
  · have h : (elems (groupSymbols trans)).Perm
        (trans.filter (fun t => !blankSymbol t)) := by
      have h0 := groupSymbolsLoop_elems trans [] (by simp)
      simpa [elems] using h0
    have h2 := List.filter_append_perm (fun t => !blankSymbol t) trans
    simp only [Bool.not_not] at h2
    exact (h.append_right _).trans h2
  · intro p hp
    have h := groupSymbolsLoop_inv trans [] []
      (by intro p hp; cases hp) (by simp) (by intro t ht; cases ht)
    simpa using (h.1 p hp).2

/-- Witness for C7 at a concrete two-trade list: the group of symbol `A`
holds exactly the input trade with trimmed symbol `A`. -/
theorem groupSymbols_partition_witness :
    [txFor "A"] = [txFor "A", txFor "A B"].filter
      (fun t => trimSpace t.Symbol = "A") := by
  have h := (groupSymbols_partition [txFor "A", txFor "A B"]).2
    ("A", [txFor "A"]) (by decide)
  simpa using h

/-! ### Claim C4 — iteration order over the relationship map -/

/-- C4 counterexample: iteration order over the relationship map CAN change
the final set of records, not just their order.  On the realizable map
`{A ↦ [A B, A B C], A B ↦ [A B C]}` (exactly what `groupRelatedSymbols`
produces for the symbols `A`, `A B`, `A B C`), iterating `A` first yields
one record (`A` with two related positions), while iterating `A B` first
yields two records (`A B` with one related position, and `A` with none) —
not a permutation of each other. -/
theorem getEffectiveCostBasis_order_dependent :
    (getEffectiveCostBasis relAB groupedABC).length = 1 ∧
    (getEffectiveCostBasis relBA groupedABC).length = 2 ∧
    relAB.Perm relBA ∧
    ¬ (getEffectiveCostBasis relAB groupedABC).Perm
        (getEffectiveCostBasis relBA groupedABC) := by
  refine ⟨rfl, rfl, by decide, ?_⟩
  intro h
  have hlen := h.length_eq
  rw [show (getEffectiveCostBasis relAB groupedABC).length = 1 from rfl,
      show (getEffectiveCostBasis relBA groupedABC).length = 2 from rfl] at hlen
  exact absurd hlen (by decide)

theorem relatedLoop_no_skip (grouped : List (String × List Transaction)) :
    ∀ (rs : List String) (cb : CostBasis) (visited : List String),
    rs.Nodup → (∀ r ∈ rs, r ∉ visited) →
    relatedLoop grouped rs cb visited =
      (rs.foldl (fun acc r => appendCostBasis acc (newCostBasis r (lookupGroup grouped r))) cb,
       visited ++ rs) := by
  intro rs
  induction rs with
  | nil =>
    intro cb visited _ _
    simp [relatedLoop]
  | cons r rest ih =>
    intro cb visited hnd hvis
    have hr : r ∉ visited := hvis r (List.mem_cons_self r rest)
    rw [List.nodup_cons] at hnd
    simp only [relatedLoop]
    rw [if_neg hr]
    rw [ih _ (visited ++ [r]) hnd.2 ?_]
    · rw [List.append_assoc, List.singleton_append]
      rfl
    · intro r' hr' hmem
      rcases List.mem_append.mp hmem with h | h
      · exact hvis r' (List.mem_cons_of_mem _ hr') h
      · have : r' = r := by simpa using h
        exact hnd.1 (this ▸ hr')

theorem costBasisLoop1_no_skip (grouped : List (String × List Transaction)) :
    ∀ (rel : List (String × List String)) (visited : List String),
    (allSyms rel).Nodup →
    (∀ x ∈ allSyms rel, x ∉ visited) →
    costBasisLoop1 grouped rel visited =
      (rel.map (buildBase grouped), visited ++ allSyms rel) := by
  intro rel
  induction rel with
  | nil =>
    intro visited _ _
    simp [costBasisLoop1, allSyms]
  | cons p rest ih =>
    intro visited hnd hvis
    obtain ⟨s, rs⟩ := p
    have hall : allSyms ((s, rs) :: rest) = (s :: rs) ++ allSyms rest := by
      simp [allSyms]
    rw [hall] at hnd hvis
    rw [List.nodup_append] at hnd
    obtain ⟨hnd1, hnd2, hdisj⟩ := hnd
    have hs : s ∉ visited := hvis s (by simp)
    simp only [costBasisLoop1]
    rw [if_neg hs]
    rw [relatedLoop_no_skip grouped rs (newCostBasis s (lookupGroup grouped s))
      (visited ++ [s]) (List.nodup_cons.mp hnd1).2 ?_]
    · rw [ih ((visited ++ [s]) ++ rs) hnd2 ?_]
      · dsimp only []
        rw [hall, List.map_cons]
        simp only [Prod.mk.injEq]
        constructor
        · rfl
        · simp [List.append_assoc]
      · intro x hx hmem
        rcases List.mem_append.mp hmem with h | h
        · rcases List.mem_append.mp h with h' | h'
          · exact hvis x (List.mem_append.mpr (Or.inr hx)) h'
          · have : x = s := by simpa using h'
            exact hdisj (this ▸ List.mem_cons_self s rs) hx
        · exact hdisj (List.mem_cons_of_mem s h) hx
    · intro r hr hmem
      rcases List.mem_append.mp hmem with h | h
      · exact hvis r (List.mem_append.mpr (Or.inl (List.mem_cons_of_mem s hr))) h
      · have : r = s := by simpa using h
        exact (List.nodup_cons.mp hnd1).1 (this ▸ hr)

theorem costBasisLoop2_congr (v₁ v₂ : List String)
    (h : ∀ x : String, x ∈ v₁ ↔ x ∈ v₂) :
    ∀ grouped : List (String × List Transaction),
    costBasisLoop2 v₁ grouped = costBasisLoop2 v₂ grouped := by
  intro grouped
  induction grouped with
  | nil => rfl
  | cons p rest ih =>
    obtain ⟨s, tr⟩ := p
    simp only [costBasisLoop2]
    by_cases hs : s ∈ v₁
    · rw [if_pos hs, if_pos ((h s).mp hs), ih]
    · rw [if_neg hs, if_neg (fun hm => hs ((h s).mpr hm)), ih]

/-- C4 (amended): when every symbol the relationship map mentions (each
base key and each related symbol, across all entries) is distinct — so no
base symbol appears in another base's related list and no related symbol
is shared — any two iteration orders over the base symbols produce the
same multiset of cost-basis records, differing only in their relative
ordering in the output list. -/
theorem getEffectiveCostBasis_perm (rel rel' : List (String × List String))
    (grouped : List (String × List Transaction))
    (hperm : rel.Perm rel') (hnd : (allSyms rel).Nodup) :
    (getEffectiveCostBasis rel grouped).Perm (getEffectiveCostBasis rel' grouped) := by
  have hpermAll : (allSyms rel).Perm (allSyms rel') := by
    unfold allSyms
    exact (hperm.map _).flatten
  have hnd' : (allSyms rel').Nodup := hpermAll.nodup_iff.mp hnd
  simp only [getEffectiveCostBasis]
  rw [costBasisLoop1_no_skip grouped rel [] hnd (by intro x hx; simp),
      costBasisLoop1_no_skip grouped rel' [] hnd' (by intro x hx; simp)]
  simp only [List.nil_append]
  rw [costBasisLoop2_congr (allSyms rel) (allSyms rel')
    (fun x => hpermAll.mem_iff) grouped]
  exact (hperm.map (buildBase grouped)).append_right _

/-- Witness for C4's amended theorem: a relationship map whose mentioned
symbols are all distinct, iterated in two opposite orders. -/
theorem getEffectiveCostBasis_perm_witness :
    (getEffectiveCostBasis relW groupedABC).Perm
      (getEffectiveCostBasis relW' groupedABC) :=
  getEffectiveCostBasis_perm relW relW' groupedABC (by decide) (by decide)
